import Mathlib

/-!
# A shallow embedding of the Document-Word-List core

This file embeds, in Lean 4, the container and intersection core of the
repository (`src/Document_Word_List.c` together with the strategy interface
`src/Intersection_Approaches.h`) and proves the behavioural properties stated
about it.

Modelling conventions:

* Token values (`uint_fast32_t`) are modelled as `Nat`.  The code only ever
  compares token values for equality and uses them as indices, so no modular
  arithmetic arises.  Sizes (`size_t`) are likewise `Nat`.
* The fatal `ASSERT_MSG` / `ASSERT_FMSG` aborts are modelled as explicit error
  results (`Except DWL_Error`), following the error taxonomy of the design
  documentation (`InvalidArgument`, `CapacityExceeded`, `ContainerFull`).
  The asserts are translated in their source order.
* An out-of-bounds access to the `multiple_guard` array — undefined behaviour
  in the C program — is modelled as the distinguished failure
  `DWL_Error.guardOutOfBounds`: any execution that would touch the guard
  outside its allocated size is mapped to that error.
* `CALLOC` yields zero-filled storage, so a freshly created container carries
  fully allocated, zero-filled rows, and the guard starts all-`false`.
  `REALLOC`'s extension bytes are indeterminate in C; they are modelled as
  `false` (the zero-filled reading, the one favourable to the program).  None
  of the negative results below depends on this choice: they are reached
  before any guard cell of a reallocated region is read.
-/

set_option maxRecDepth 40000

/-- The error taxonomy of the design documentation, plus the distinguished
`guardOutOfBounds` marking an out-of-bounds guard access (undefined behaviour
in the C program). -/
inductive DWL_Error where
  | invalidArgument
  | capacityExceeded
  | containerFull
  | guardOutOfBounds
deriving DecidableEq, Repr

/-- Modelled from the spec: `enum Intersection_Mode` is declared in
`Document_Word_List.h`, a header that is not among the provided sources.  The
documentation describes a strategy selector with kinds for the naive approach
(the default, the only implemented one) and the two sort-based approaches. -/
inductive Intersection_Mode where
  | intersection_mode_defaults
  | intersection_mode_qsort_and_binary_search
  | intersection_mode_heapsort_and_binary_search
deriving DecidableEq, Repr

/-- `struct Document_Word_List`.  `data` holds `number_of_arrays` rows, each
allocated at the full `max_array_length` (cells past the used length keep
their `CALLOC` zeroes); `arrays_lengths` is the parallel used-length table. -/
structure Document_Word_List where
  data : List (List Nat)
  arrays_lengths : List Nat
  max_array_length : Nat
  number_of_arrays : Nat
  next_free_array : Nat
  intersection_data : Bool
deriving DecidableEq, Repr

/-- The live (used) part of row `i`: `data[i][0 .. arrays_lengths[i])`. -/
def live_subset (object : Document_Word_List) (i : Nat) : List Nat :=
  (object.data.getD i []).take (object.arrays_lengths.getD i 0)

/-- `Create_Document_Word_List`: both dimension asserts, then the zero-filled
allocation of the outer array, the rows and the length table. -/
def Create_Document_Word_List (number_of_arrays max_array_length : Nat) :
    Except DWL_Error Document_Word_List :=
  if number_of_arrays = 0 then .error .invalidArgument
  else if max_array_length = 0 then .error .invalidArgument
  else .ok
    { data := List.replicate number_of_arrays (List.replicate max_array_length 0)
      arrays_lengths := List.replicate number_of_arrays 0
      max_array_length := max_array_length
      number_of_arrays := number_of_arrays
      next_free_array := 0
      intersection_data := false }

/-- `Append_Data_To_Document_Word_List`: the length assert, the capacity
assert, the free-slot assert (in source order), then the `memcpy` of
`data_length` elements into row `next_free_array` (cells past the copied
prefix keep their previous contents), the length-table update and the cursor
increment.  The supplied list is the pointed-to data; its length plays the
role of `data_length`. -/
def Append_Data_To_Document_Word_List (object : Document_Word_List)
    (new_data : List Nat) : Except DWL_Error Document_Word_List :=
  if new_data.length = 0 then .error .invalidArgument
  else if ¬ new_data.length ≤ object.max_array_length then .error .capacityExceeded
  else if ¬ object.next_free_array < object.number_of_arrays then .error .containerFull
  else .ok
    { object with
      data := object.data.set object.next_free_array
        (new_data ++ (object.data.getD object.next_free_array []).drop new_data.length)
      arrays_lengths := object.arrays_lengths.set object.next_free_array new_data.length
      next_free_array := object.next_free_array + 1 }

/-- The body of the innermost loop of `Intersect_Data_With_Document_Word_List`
(source lines 201–221), acting on the state (guard array, result row built so
far).  `x` is the container element `object->data[i][i2]`, `v` the query
element `data[i3]`.  On a match the growth test `data[i3] >
size_multiple_guard` enlarges the guard by exactly one `realloc` step of 1000
cells — at most once per match — with `REALLOC`'s extension modelled
zero-filled. -/
def guard_grow (g : List Bool) (v : Nat) : List Bool :=
  if v > g.length then g ++ List.replicate 1000 false else g

/-- The guard test and mark after the growth step: `multiple_guard[data[i3]]`
is read — out of bounds (modelled as `guardOutOfBounds`) whenever the value
still is not below the guard size — and on an unseen value the value is
appended to the result row and marked. -/
def guard_step (st : List Bool × List Nat) (x v : Nat) :
    Except DWL_Error (List Bool × List Nat) :=
  if x = v then
    if v < (guard_grow st.1 v).length then
      if (guard_grow st.1 v).getD v false = false then
        .ok ((guard_grow st.1 v).set v true, st.2 ++ [v])
      else .ok (guard_grow st.1 v, st.2)
    else .error .guardOutOfBounds
  else .ok st

/-- The innermost loop (`for i3 in [0, data_length)`): fold `guard_step` over
the query for a fixed container element `x`. -/
def inner_loop (st : List Bool × List Nat) (x : Nat) (query : List Nat) :
    Except DWL_Error (List Bool × List Nat) :=
  match query with
  | [] => .ok st
  | v :: rest =>
    match guard_step st x v with
    | .ok st' => inner_loop st' x rest
    | .error e => .error e

/-- The middle loop (`for i2 in [0, arrays_lengths[i])`): fold over the live
elements of one row. -/
def subset_loop (st : List Bool × List Nat) (subset query : List Nat) :
    Except DWL_Error (List Bool × List Nat) :=
  match subset with
  | [] => .ok st
  | x :: rest =>
    match inner_loop st x query with
    | .ok st' => subset_loop st' rest query
    | .error e => .error e

/-- Processing of one row: the `memset` resets the guard bits over its current
allocated size, the row is scanned, and the (possibly grown) guard size is
carried over to the next row together with the produced result row. -/
def process_subset (guard_size : Nat) (subset query : List Nat) :
    Except DWL_Error (Nat × List Nat) :=
  match subset_loop (List.replicate guard_size false, []) subset query with
  | .ok st => .ok (st.1.length, st.2)
  | .error e => .error e

/-- The outer loop (`for i in [0, number_of_arrays)`), threading the guard
size from row to row and collecting the result rows. -/
def intersection_loop (subsets : List (List Nat)) (query : List Nat)
    (guard_size : Nat) : Except DWL_Error (List (List Nat)) :=
  match subsets with
  | [] => .ok []
  | s :: rest =>
    match process_subset guard_size s query with
    | .ok gr =>
      match intersection_loop rest query gr.1 with
      | .ok rs => .ok (gr.2 :: rs)
      | .error e => .error e
    | .error e => .error e

/-- Assembling the result container: a fresh zero-filled container of the
input's shape whose rows have been filled sequentially with the produced
result rows (cells past each used length keep their `CALLOC` zeroes), with
the input's cursor and the derived-data flag set. -/
def result_container (object : Document_Word_List)
    (result_rows : List (List Nat)) : Document_Word_List :=
  { data := result_rows.map (fun r => r ++ List.replicate (object.max_array_length - r.length) 0)
    arrays_lengths := result_rows.map List.length
    max_array_length := object.max_array_length
    number_of_arrays := object.number_of_arrays
    next_free_array := object.next_free_array
    intersection_data := true }

/-- `Intersect_Data_With_Document_Word_List`: the asserts in source order
(data length, intersection mode, data length against the capacity), the
creation of the result container (whose own asserts require non-zero
dimensions), the guard allocation of 1000 zero-filled cells, and the naive
triple loop. -/
def Intersect_Data_With_Document_Word_List (object : Document_Word_List)
    (data : List Nat) (mode : Intersection_Mode) :
    Except DWL_Error Document_Word_List :=
  if data.length = 0 then .error .invalidArgument
  else if ¬ mode = .intersection_mode_defaults then .error .invalidArgument
  else if ¬ data.length ≤ object.max_array_length then .error .capacityExceeded
  else if object.number_of_arrays = 0 then .error .invalidArgument
  else if object.max_array_length = 0 then .error .invalidArgument
  else
    match intersection_loop
        ((List.range object.number_of_arrays).map (live_subset object)) data 1000 with
    | .ok rs => .ok (result_container object rs)
    | .error e => .error e

/-- The container invariants of the data-model documentation, together with
the structural well-formedness the C representation guarantees (table lengths
match `number_of_arrays`, every row is allocated at `max_array_length`, both
dimensions are positive). -/
def WordList_Invariant (c : Document_Word_List) : Prop :=
  c.next_free_array ≤ c.number_of_arrays ∧
  c.data.length = c.number_of_arrays ∧
  c.arrays_lengths.length = c.number_of_arrays ∧
  0 < c.number_of_arrays ∧
  0 < c.max_array_length ∧
  (∀ i < c.number_of_arrays, c.arrays_lengths.getD i 0 ≤ c.max_array_length) ∧
  (∀ i < c.number_of_arrays, (c.data.getD i []).length = c.max_array_length) ∧
  (∀ i < c.number_of_arrays, c.next_free_array ≤ i → c.arrays_lengths.getD i 0 = 0)

instance (c : Document_Word_List) : Decidable (WordList_Invariant c) := by
  unfold WordList_Invariant; infer_instance

/-! ## List helpers for the guard array -/

theorem getD_grow (g : List Bool) (n v : Nat) :
    (g ++ List.replicate n false).getD v false = g.getD v false := by
  rcases lt_or_le v g.length with h | h
  · exact List.getD_append _ _ _ _ h
  · rw [List.getD_eq_default _ _ h, List.getD_eq_getElem?_getD, List.getElem?_append]
    rw [if_neg (by omega), List.getElem?_replicate]
    split <;> rfl

theorem guard_grow_getD (g : List Bool) (v w : Nat) :
    (guard_grow g v).getD w false = g.getD w false := by
  unfold guard_grow
  split
  · exact getD_grow g 1000 w
  · rfl

theorem getD_set_self {g : List Bool} {x : Nat} (h : x < g.length) (b : Bool) :
    (g.set x b).getD x false = b := by
  rw [List.getD_eq_getElem?_getD, List.getElem?_set, if_pos rfl, if_pos h]
  rfl

theorem getD_set_ne {g : List Bool} (x v : Nat) (h : v ≠ x) (b : Bool) :
    (g.set x b).getD v false = g.getD v false := by
  rw [List.getD_eq_getElem?_getD, List.getElem?_set, if_neg (fun hh => h hh.symm),
    List.getD_eq_getElem?_getD]

theorem getD_replicate_false (n v : Nat) :
    (List.replicate n false).getD v false = false := by
  rw [List.getD_eq_getElem?_getD, List.getElem?_replicate]
  split <;> rfl

/-! ## Inversion lemmas for the naive triple loop -/

/-- What one successful `guard_step` can do: marks only accumulate, and the
result row either is untouched or gains exactly the matched value `x`, in
which case `x` was unseen before and is marked afterwards. -/
theorem guard_step_ok {st st' : List Bool × List Nat} {x v : Nat}
    (h : guard_step st x v = .ok st') :
    (∀ w, st.1.getD w false = true → st'.1.getD w false = true) ∧
    (st' = st ∨
      (st'.2 = st.2 ++ [x] ∧ v = x ∧ st.1.getD x false = false ∧
        st'.1.getD x false = true)) := by
  unfold guard_step at h
  by_cases hxv : x = v
  · rw [if_pos hxv] at h
    by_cases hb : v < (guard_grow st.1 v).length
    · rw [if_pos hb] at h
      by_cases hm : (guard_grow st.1 v).getD v false = false
      · rw [if_pos hm] at h
        cases h
        subst hxv
        constructor
        · intro w hw
          by_cases hwx : w = x
          · subst hwx
            exact getD_set_self hb true
          · rw [getD_set_ne x w hwx, guard_grow_getD]
            exact hw
        · right
          refine ⟨rfl, rfl, ?_, ?_⟩
          · rw [guard_grow_getD] at hm
            exact hm
          · exact getD_set_self hb true
      · rw [if_neg hm] at h
        cases h
        constructor
        · intro w hw
          rw [guard_grow_getD]
          exact hw
        · left
          have : st.1 = guard_grow st.1 v := by
            unfold guard_grow
            split
            · rename_i hgt
              exfalso
              rw [guard_grow_getD] at hm
              have : st.1.getD v false = false :=
            List.getD_eq_default _ _ (le_of_lt hgt)
              exact hm this
            · rfl
          rw [← this]
    · rw [if_neg hb] at h
      cases h
  · rw [if_neg hxv] at h
    cases h
    exact ⟨fun w hw => hw, Or.inl rfl⟩

/-- What one successful pass of the innermost loop can do: marks only
accumulate, and the result row either is untouched or gains exactly the
container element `x`, which then occurs in the query, was unseen before the
pass and is marked after it. -/
theorem inner_loop_ok {query : List Nat} :
    ∀ {st st' : List Bool × List Nat} {x : Nat},
    inner_loop st x query = .ok st' →
    (∀ w, st.1.getD w false = true → st'.1.getD w false = true) ∧
    (st' = st ∨
      (st'.2 = st.2 ++ [x] ∧ x ∈ query ∧ st.1.getD x false = false ∧
        st'.1.getD x false = true)) := by
  induction query with
  | nil =>
    intro st st' x h
    unfold inner_loop at h
    cases h
    exact ⟨fun w hw => hw, Or.inl rfl⟩
  | cons v rest ih =>
    intro st st' x h
    unfold inner_loop at h
    cases hstep : guard_step st x v with
    | error e => rw [hstep] at h; cases h
    | ok st1 =>
      rw [hstep] at h
      obtain ⟨mono1, res1⟩ := guard_step_ok hstep
      obtain ⟨mono2, res2⟩ := ih h
      refine ⟨fun w hw => mono2 w (mono1 w hw), ?_⟩
      rcases res1 with h1 | ⟨h1, hvx, hxf, hxt⟩
      · subst h1
        rcases res2 with h2 | ⟨h2, hxq, hxf, hxt⟩
        · exact Or.inl h2
        · exact Or.inr ⟨h2, List.mem_cons_of_mem v hxq, hxf, hxt⟩
      · rcases res2 with h2 | ⟨h2, hxq, hxf2, hxt2⟩
        · subst h2
          exact Or.inr ⟨h1, hvx ▸ List.mem_cons_self v rest, hxf, hxt⟩
        · rw [hxt] at hxf2
          cases hxf2

/-- The innermost loop when the matched value is addressable: no growth is
triggered, the pass succeeds, and it appends `x` exactly when `x` occurs in
the query and is unseen. -/
theorem inner_loop_small {query : List Nat} :
    ∀ {st : List Bool × List Nat} {x : Nat}, (x ∈ query → x < st.1.length) →
    inner_loop st x query =
      .ok (if x ∈ query ∧ st.1.getD x false = false
        then (st.1.set x true, st.2 ++ [x]) else st) := by
  induction query with
  | nil =>
    intro st x _
    simp [inner_loop]
  | cons v rest ih =>
    intro st x hsmall
    by_cases hxv : x = v
    · subst hxv
      have hx : x < st.1.length := hsmall (List.mem_cons_self x rest)
      have hgrow : guard_grow st.1 x = st.1 := by
        unfold guard_grow
        rw [if_neg (by omega)]
      by_cases hm : st.1.getD x false = false
      · have hstep : guard_step st x x = .ok (st.1.set x true, st.2 ++ [x]) := by
          unfold guard_step
          rw [if_pos rfl, hgrow, if_pos hx, if_pos hm]
        have hred : inner_loop st x (x :: rest) =
            inner_loop (st.1.set x true, st.2 ++ [x]) x rest := by
          conv_lhs => unfold inner_loop
          rw [hstep]
        rw [hred, ih (fun _ => by simpa using hx)]
        rw [if_neg (fun hc => by
          have h2 : (st.1.set x true).getD x false = false := hc.2
          rw [getD_set_self hx true] at h2
          exact Bool.noConfusion h2)]
        rw [if_pos ⟨List.mem_cons_self x rest, hm⟩]
      · have hstep : guard_step st x x = .ok (st.1, st.2) := by
          unfold guard_step
          rw [if_pos rfl, hgrow, if_pos hx, if_neg hm]
        have hred : inner_loop st x (x :: rest) = inner_loop st x rest := by
          conv_lhs => unfold inner_loop
          rw [hstep]
        rw [hred, ih (fun _ => hx)]
        rw [if_neg (fun hc => hm hc.2), if_neg (fun hc => hm hc.2)]
    · have hstep : guard_step st x v = .ok st := by
        unfold guard_step
        rw [if_neg hxv]
      have hred : inner_loop st x (v :: rest) = inner_loop st x rest := by
        conv_lhs => unfold inner_loop
        rw [hstep]
      rw [hred, ih (fun hmem => hsmall (List.mem_cons_of_mem v hmem))]
      exact congrArg Except.ok (if_congr (by simp [List.mem_cons, hxv]) rfl rfl)

/-- The middle loop on the success path: if every value of the incoming
result row is marked and the row has no duplicates, the same holds at the
end, and every new value comes from the scanned row and the query. -/
theorem subset_loop_inv {query : List Nat} :
    ∀ {subset : List Nat} {st st' : List Bool × List Nat},
    subset_loop st subset query = .ok st' →
    (∀ w ∈ st.2, st.1.getD w false = true) → st.2.Nodup →
    (∀ w ∈ st'.2, st'.1.getD w false = true) ∧ st'.2.Nodup ∧
    (∀ w ∈ st'.2, w ∈ st.2 ∨ (w ∈ subset ∧ w ∈ query)) := by
  intro subset
  induction subset with
  | nil =>
    intro st st' h hcov hnd
    cases h
    exact ⟨hcov, hnd, fun w hw => Or.inl hw⟩
  | cons x rest ih =>
    intro st st' h hcov hnd
    unfold subset_loop at h
    cases hstep : inner_loop st x query with
    | error e => rw [hstep] at h; cases h
    | ok st1 =>
      rw [hstep] at h
      obtain ⟨mono1, res1⟩ := inner_loop_ok hstep
      have hcov1 : ∀ w ∈ st1.2, st1.1.getD w false = true := by
        rcases res1 with h1 | ⟨h1, hxq, hxf, hxt⟩
        · subst h1
          exact hcov
        · intro w hw
          rw [h1] at hw
          rcases List.mem_append.mp hw with hw | hw
          · exact mono1 w (hcov w hw)
          · rw [List.mem_singleton.mp hw]
            exact hxt
      have hnd1 : st1.2.Nodup := by
        rcases res1 with h1 | ⟨h1, hxq, hxf, hxt⟩
        · subst h1
          exact hnd
        · rw [h1]
          refine List.Nodup.append hnd (List.nodup_singleton x) ?_
          intro a ha hax
          rw [List.mem_singleton.mp hax] at ha
          rw [hcov x ha] at hxf
          exact Bool.noConfusion hxf
      obtain ⟨hcov', hnd', hmem'⟩ := ih h hcov1 hnd1
      refine ⟨hcov', hnd', fun w hw => ?_⟩
      rcases hmem' w hw with hw1 | ⟨hwr, hwq⟩
      · rcases res1 with h1 | ⟨h1, hxq, hxf, hxt⟩
        · subst h1
          exact Or.inl hw1
        · rw [h1] at hw1
          rcases List.mem_append.mp hw1 with hw1 | hw1
          · exact Or.inl hw1
          · rw [List.mem_singleton.mp hw1]
            exact Or.inr ⟨List.mem_cons_self x rest, hxq⟩
      · exact Or.inr ⟨List.mem_cons_of_mem x hwr, hwq⟩

/-- The middle loop when every value that can match is addressable: the scan
of the row succeeds and the guard size does not change. -/
theorem subset_loop_small {query : List Nat} :
    ∀ {subset : List Nat} {st : List Bool × List Nat},
    (∀ x ∈ subset, x ∈ query → x < st.1.length) →
    ∃ st', subset_loop st subset query = .ok st' ∧ st'.1.length = st.1.length := by
  intro subset
  induction subset with
  | nil =>
    intro st _
    exact ⟨st, rfl, rfl⟩
  | cons x rest ih =>
    intro st hsmall
    have hx : x ∈ query → x < st.1.length := hsmall x (List.mem_cons_self x rest)
    set st1 := (if x ∈ query ∧ st.1.getD x false = false
      then (st.1.set x true, st.2 ++ [x]) else st) with hst1
    have hlen1 : st1.1.length = st.1.length := by
      rw [hst1]
      split
      · exact List.length_set st.1 x true
      · rfl
    obtain ⟨st', hloop, hlen⟩ := @ih st1
      (fun y hy hyq => hlen1 ▸ hsmall y (List.mem_cons_of_mem x hy) hyq)
    refine ⟨st', ?_, by rw [hlen, hlen1]⟩
    have hred : subset_loop st (x :: rest) query = subset_loop st1 rest query := by
      conv_lhs => unfold subset_loop
      rw [inner_loop_small hx]
    rw [hred, hloop]

/-- A successfully processed row yields a duplicate-free result row whose
values all come from both the row and the query. -/
theorem process_subset_ok {guard_size : Nat} {subset query : List Nat}
    {gr : Nat × List Nat} (h : process_subset guard_size subset query = .ok gr) :
    gr.2.Nodup ∧ ∀ w ∈ gr.2, w ∈ subset ∧ w ∈ query := by
  unfold process_subset at h
  cases hloop : subset_loop (List.replicate guard_size false, []) subset query with
  | error e => rw [hloop] at h; cases h
  | ok st =>
    rw [hloop] at h
    cases h
    obtain ⟨_, hnd, hmem⟩ := subset_loop_inv hloop (fun w hw => absurd hw
      (List.not_mem_nil w)) List.nodup_nil
    refine ⟨hnd, fun w hw => ?_⟩
    rcases hmem w hw with hw | hw
    · exact absurd hw (List.not_mem_nil w)
    · exact hw

/-- A row whose values only match query values below the guard size is
processed successfully and leaves the guard size unchanged. -/
theorem process_subset_small {guard_size : Nat} {subset query : List Nat}
    (hsmall : ∀ x ∈ subset, x ∈ query → x < guard_size) :
    ∃ r, process_subset guard_size subset query = .ok (guard_size, r) := by
  obtain ⟨st', hloop, hlen⟩ := @subset_loop_small query subset
    (List.replicate guard_size false, [])
    (fun x hx hxq => by
      rw [show ((List.replicate guard_size false, ([] : List Nat))).1.length
          = guard_size from by simp]
      exact hsmall x hx hxq)
  simp only [List.length_replicate] at hlen
  refine ⟨st'.2, ?_⟩
  unfold process_subset
  rw [hloop]
  show Except.ok (st'.1.length, st'.2) = Except.ok (guard_size, st'.2)
  rw [hlen]

/-- An empty row is processed successfully, producing an empty result row and
leaving the guard size unchanged. -/
theorem process_subset_nil (guard_size : Nat) (query : List Nat) :
    process_subset guard_size [] query = .ok (guard_size, []) := by
  unfold process_subset subset_loop
  simp

/-- The outer loop on the success path: one result row per input row, each
duplicate-free with all its values taken from the matching input row and from
the query. -/
theorem intersection_loop_ok {query : List Nat} :
    ∀ {subsets : List (List Nat)} {gsz : Nat} {rs : List (List Nat)},
    intersection_loop subsets query gsz = .ok rs →
    rs.length = subsets.length ∧
    ∀ i, (rs.getD i []).Nodup ∧
      ∀ w ∈ rs.getD i [], w ∈ subsets.getD i [] ∧ w ∈ query := by
  intro subsets
  induction subsets with
  | nil =>
    intro gsz rs h
    cases h
    exact ⟨rfl, fun i => by simp⟩
  | cons s rest ih =>
    intro gsz rs h
    unfold intersection_loop at h
    cases hp : process_subset gsz s query with
    | error e => rw [hp] at h; cases h
    | ok gr =>
      rw [hp] at h
      have h2 : (match intersection_loop rest query gr.1 with
        | Except.ok rs => Except.ok (gr.2 :: rs)
        | Except.error e => (Except.error e : Except DWL_Error (List (List Nat))))
          = Except.ok rs := h
      cases hrest : intersection_loop rest query gr.1 with
      | error e => rw [hrest] at h2; cases h2
      | ok rs' =>
        rw [hrest] at h2
        cases h2
        obtain ⟨hlen, hall⟩ := ih hrest
        obtain ⟨hnd, hmem⟩ := process_subset_ok hp
        refine ⟨by simp [hlen], fun i => ?_⟩
        cases i with
        | zero => exact ⟨hnd, hmem⟩
        | succ j => simpa using hall j

/-- The outer loop when every query value is below the initial guard size:
every row is processed successfully. -/
theorem intersection_loop_small {query : List Nat} :
    ∀ {subsets : List (List Nat)} {gsz : Nat},
    (∀ v ∈ query, v < gsz) →
    ∃ rs, intersection_loop subsets query gsz = .ok rs := by
  intro subsets
  induction subsets with
  | nil =>
    intro gsz _
    exact ⟨[], rfl⟩
  | cons s rest ih =>
    intro gsz hsmall
    obtain ⟨r, hp⟩ := @process_subset_small gsz s query
      (fun x _ hxq => hsmall x hxq)
    obtain ⟨rs', hrest⟩ := @ih gsz hsmall
    refine ⟨r :: rs', ?_⟩
    unfold intersection_loop
    rw [hp]
    show (match intersection_loop rest query gsz with
      | Except.ok rs => Except.ok (r :: rs)
      | Except.error e => (Except.error e : Except DWL_Error (List (List Nat))))
        = Except.ok (r :: rs')
    rw [hrest]

/-- The outer loop over rows that are all empty: it succeeds, and every
result row is empty. -/
theorem intersection_loop_all_nil {query : List Nat} :
    ∀ {subsets : List (List Nat)} {gsz : Nat},
    (∀ s ∈ subsets, s = []) →
    ∃ rs, intersection_loop subsets query gsz = .ok rs ∧
      rs.length = subsets.length ∧ ∀ r ∈ rs, r = [] := by
  intro subsets
  induction subsets with
  | nil =>
    intro gsz _
    exact ⟨[], rfl, rfl, by simp⟩
  | cons s rest ih =>
    intro gsz hnil
    obtain ⟨rs', hrest, hlen, hmem⟩ := @ih gsz
      (fun t ht => hnil t (List.mem_cons_of_mem s ht))
    refine ⟨[] :: rs', ?_, by simp [hlen], ?_⟩
    · unfold intersection_loop
      rw [hnil s (List.mem_cons_self s rest), process_subset_nil]
      show (match intersection_loop rest query gsz with
        | Except.ok rs => Except.ok ([] :: rs)
        | Except.error e => (Except.error e : Except DWL_Error (List (List Nat))))
          = Except.ok ([] :: rs')
      rw [hrest]
    · intro r hr
      rcases List.mem_cons.mp hr with hr | hr
      · exact hr
      · exact hmem r hr

/-! ## Container-level helper lemmas -/

theorem getD_set_eq {α : Type} {l : List α} {i : Nat} (h : i < l.length)
    (a d : α) : (l.set i a).getD i d = a := by
  rw [List.getD_eq_getElem?_getD, List.getElem?_set, if_pos rfl, if_pos h]
  rfl

theorem getD_set_neq {α : Type} (l : List α) {i j : Nat} (h : j ≠ i)
    (a d : α) : (l.set i a).getD j d = l.getD j d := by
  rw [List.getD_eq_getElem?_getD, List.getElem?_set,
    if_neg (fun hh => h hh.symm), List.getD_eq_getElem?_getD]

theorem getD_replicate {α : Type} {n i : Nat} (h : i < n) (a d : α) :
    (List.replicate n a).getD i d = a := by
  rw [List.getD_eq_getElem?_getD, List.getElem?_replicate, if_pos h]
  rfl

theorem getD_map_of_lt {α β : Type} (f : α → β) (l : List α) {i : Nat}
    (h : i < l.length) (d : α) (e : β) : (l.map f).getD i e = f (l.getD i d) := by
  rw [List.getD_eq_getElem?_getD, List.getElem?_map, List.getElem?_eq_getElem h,
    List.getD_eq_getElem?_getD, List.getElem?_eq_getElem h]
  rfl

/-- Row `i` of an assembled result container, viewed through its recorded
length, is exactly the `i`-th produced result row. -/
theorem live_subset_result {object : Document_Word_List}
    {rs : List (List Nat)} {i : Nat} (h : i < rs.length) :
    live_subset (result_container object rs) i = rs.getD i [] := by
  unfold live_subset result_container
  have hdata := getD_map_of_lt (fun r => r ++ List.replicate
      (object.max_array_length - r.length) 0) rs h [] []
  have hlen := getD_map_of_lt List.length rs h [] 0
  show ((rs.map fun r => r ++ List.replicate
      (object.max_array_length - r.length) 0).getD i []).take
      ((rs.map List.length).getD i 0) = rs.getD i []
  rw [hdata, hlen]
  exact List.take_left _ _

/-- The recorded length of row `i` of an assembled result container is the
length of the `i`-th produced result row. -/
theorem arrays_lengths_result {object : Document_Word_List}
    {rs : List (List Nat)} {i : Nat} (h : i < rs.length) :
    (result_container object rs).arrays_lengths.getD i 0 =
      (rs.getD i []).length := by
  show (rs.map List.length).getD i 0 = (rs.getD i []).length
  exact getD_map_of_lt List.length rs h [] 0

/-- The list of live rows handed to the outer loop, at index `i`. -/
theorem live_rows_getD {object : Document_Word_List} {i : Nat}
    (h : i < object.number_of_arrays) :
    ((List.range object.number_of_arrays).map (live_subset object)).getD i []
      = live_subset object i := by
  have hr : (List.range object.number_of_arrays).getD i 0 = i := by
    rw [List.getD_eq_getElem?_getD, List.getElem?_range h]
    rfl
  have hm := getD_map_of_lt (live_subset object)
    (List.range object.number_of_arrays) (by simpa using h) 0 []
  rw [hr] at hm
  exact hm

/-! ## Error classification of the triple loop -/

theorem guard_step_error {st : List Bool × List Nat} {x v : Nat} {e : DWL_Error}
    (h : guard_step st x v = .error e) : e = .guardOutOfBounds := by
  unfold guard_step at h
  split_ifs at h <;> cases h <;> rfl

theorem inner_loop_error {query : List Nat} :
    ∀ {st : List Bool × List Nat} {x : Nat} {e : DWL_Error},
    inner_loop st x query = .error e → e = .guardOutOfBounds := by
  induction query with
  | nil =>
    intro st x e h
    cases h
  | cons v rest ih =>
    intro st x e h
    unfold inner_loop at h
    cases hstep : guard_step st x v with
    | error e2 =>
      rw [hstep] at h
      cases h
      exact guard_step_error hstep
    | ok st1 =>
      rw [hstep] at h
      exact ih h

theorem subset_loop_error {query : List Nat} :
    ∀ {subset : List Nat} {st : List Bool × List Nat} {e : DWL_Error},
    subset_loop st subset query = .error e → e = .guardOutOfBounds := by
  intro subset
  induction subset with
  | nil =>
    intro st e h
    cases h
  | cons x rest ih =>
    intro st e h
    unfold subset_loop at h
    cases hstep : inner_loop st x query with
    | error e2 =>
      rw [hstep] at h
      cases h
      exact inner_loop_error hstep
    | ok st1 =>
      rw [hstep] at h
      exact ih h

theorem process_subset_error {guard_size : Nat} {subset query : List Nat}
    {e : DWL_Error} (h : process_subset guard_size subset query = .error e) :
    e = .guardOutOfBounds := by
  unfold process_subset at h
  cases hloop : subset_loop (List.replicate guard_size false, []) subset query with
  | error e2 =>
    rw [hloop] at h
    cases h
    exact subset_loop_error hloop
  | ok st =>
    rw [hloop] at h
    cases h

theorem intersection_loop_error {query : List Nat} :
    ∀ {subsets : List (List Nat)} {gsz : Nat} {e : DWL_Error},
    intersection_loop subsets query gsz = .error e → e = .guardOutOfBounds := by
  intro subsets
  induction subsets with
  | nil =>
    intro gsz e h
    cases h
  | cons s rest ih =>
    intro gsz e h
    unfold intersection_loop at h
    cases hp : process_subset gsz s query with
    | error e2 =>
      rw [hp] at h
      cases h
      exact process_subset_error hp
    | ok gr =>
      rw [hp] at h
      have h2 : (match intersection_loop rest query gr.1 with
        | Except.ok rs => Except.ok (gr.2 :: rs)
        | Except.error e => (Except.error e : Except DWL_Error (List (List Nat))))
          = Except.error e := h
      cases hrest : intersection_loop rest query gr.1 with
      | error e2 =>
        rw [hrest] at h2
        cases h2
        exact ih hrest
      | ok rs =>
        rw [hrest] at h2
        cases h2

/-! ## Inversion and evaluation of the intersection entry point -/

/-- Inversion of a successful `Intersect_Data_With_Document_Word_List` call:
all asserts passed and the result is the assembled container of the rows the
triple loop produced. -/
theorem intersect_ok_inversion {object : Document_Word_List} {data : List Nat}
    {mode : Intersection_Mode} {r : Document_Word_List}
    (h : Intersect_Data_With_Document_Word_List object data mode = .ok r) :
    data.length ≠ 0 ∧ mode = .intersection_mode_defaults ∧
    data.length ≤ object.max_array_length ∧
    object.number_of_arrays ≠ 0 ∧ object.max_array_length ≠ 0 ∧
    ∃ rs, intersection_loop ((List.range object.number_of_arrays).map
        (live_subset object)) data 1000 = .ok rs ∧
      rs.length = object.number_of_arrays ∧ r = result_container object rs := by
  unfold Intersect_Data_With_Document_Word_List at h
  split_ifs at h with h1 h2 h3 h4 h5
  cases hloop : intersection_loop ((List.range object.number_of_arrays).map
      (live_subset object)) data 1000 with
  | error e =>
    rw [hloop] at h
    cases h
  | ok rs =>
    rw [hloop] at h
    cases h
    refine ⟨h1, h2, h3, h4, h5, rs, rfl, ?_, rfl⟩
    have := (intersection_loop_ok hloop).1
    simpa using this

/-- Forward evaluation of `Intersect_Data_With_Document_Word_List` when the
asserts pass and the triple loop succeeds. -/
theorem intersect_eval {object : Document_Word_List} {data : List Nat}
    (h0 : data ≠ []) (h2 : data.length ≤ object.max_array_length)
    (h3 : object.number_of_arrays ≠ 0) (h4 : object.max_array_length ≠ 0)
    {rs : List (List Nat)}
    (hloop : intersection_loop ((List.range object.number_of_arrays).map
      (live_subset object)) data 1000 = .ok rs) :
    Intersect_Data_With_Document_Word_List object data
      .intersection_mode_defaults = .ok (result_container object rs) := by
  unfold Intersect_Data_With_Document_Word_List
  rw [if_neg (fun hc => h0 (List.length_eq_zero.mp hc))]
  rw [if_neg (fun hc => hc rfl)]
  rw [if_neg (not_not_intro h2), if_neg h3, if_neg h4, hloop]

deriving instance DecidableEq for Except

theorem getD_mem_of_lt {α : Type} {l : List α} {n : Nat} (h : n < l.length)
    (d : α) : l.getD n d ∈ l := by
  rw [List.getD_eq_getElem?_getD, List.getElem?_eq_getElem h]
  exact List.getElem_mem h

/-- A duplicate-free list whose values all occur in another list is no longer
than that list. -/
theorem length_le_of_nodup_subset {l q : List Nat} (hnd : l.Nodup)
    (hsub : ∀ w ∈ l, w ∈ q) : l.length ≤ q.length := by
  calc l.length = l.toFinset.card := (List.toFinset_card_of_nodup hnd).symm
    _ ≤ q.toFinset.card := Finset.card_le_card
        (fun w hw => List.mem_toFinset.mpr (hsub w (List.mem_toFinset.mp hw)))
    _ ≤ q.length := List.toFinset_card_le q

/-! ## Concrete instances used in the closed theorems -/

/-- The documentation's concrete scenario: a 2 × 5 container filled with
`[1,2,3,2,1]` and `[4,5,6]` (cells past the used lengths keep their zeroes). -/
def sample_container : Document_Word_List :=
  { data := [[1, 2, 3, 2, 1], [4, 5, 6, 0, 0]]
    arrays_lengths := [5, 3]
    max_array_length := 5
    number_of_arrays := 2
    next_free_array := 2
    intersection_data := false }

/-- What intersecting `sample_container` with the query `[1,2,4]` produces:
row sets `{1,2}` and `{4}`. -/
def sample_result : Document_Word_List :=
  { data := [[1, 2, 0, 0, 0], [4, 0, 0, 0, 0]]
    arrays_lengths := [2, 1]
    max_array_length := 5
    number_of_arrays := 2
    next_free_array := 2
    intersection_data := true }

/-- A full 1 × 1 container holding the single row `[5]`. -/
def full_one_slot : Document_Word_List :=
  { data := [[5]]
    arrays_lengths := [1]
    max_array_length := 1
    number_of_arrays := 1
    next_free_array := 1
    intersection_data := false }

/-- A full 1 × 1 container holding the single row `[1000]`: the value equals
the guard's initial capacity. -/
def slot_value_1000 : Document_Word_List :=
  { data := [[1000]]
    arrays_lengths := [1]
    max_array_length := 1
    number_of_arrays := 1
    next_free_array := 1
    intersection_data := false }

/-- A full 1 × 1 container holding the single row `[2500]`: the value exceeds
the guard's initial capacity by more than one growth increment. -/
def slot_value_2500 : Document_Word_List :=
  { data := [[2500]]
    arrays_lengths := [1]
    max_array_length := 1
    number_of_arrays := 1
    next_free_array := 1
    intersection_data := false }

/-! ## The claims about the intersection core -/

/-- C1.  The documented set-correctness property fails on the code: for the
valid container `slot_value_1000` and the query `[1000]` the expected result
row is `{1000}`, but the matched value equals the guard's allocated size, the
growth test `data[i3] > size_multiple_guard` (1000 > 1000) does not fire, and
the program reads `multiple_guard[1000]` out of bounds instead of returning a
container. -/
theorem C1_set_correctness_fails_eval :
    Intersect_Data_With_Document_Word_List slot_value_1000 [1000]
      .intersection_mode_defaults = .error .guardOutOfBounds := by decide

/-- C2.  The documented grow-until-addressable behaviour fails on the code:
for the container `slot_value_2500` and the query `[2500]` the matched value
exceeds the guard's capacity of 1000 by more than one 1000-cell increment,
the code grows the guard exactly once (to 2000 cells) instead of repeatedly,
and then reads `multiple_guard[2500]` out of bounds. -/
theorem C2_growth_loop_fails_eval :
    Intersect_Data_With_Document_Word_List slot_value_2500 [2500]
      .intersection_mode_defaults = .error .guardOutOfBounds := by decide

/-- C4.  No value appears more than once in any single result row of a
completed intersection call, however often it repeats in the input row or in
the query. -/
theorem C4_result_rows_nodup (c : Document_Word_List) (q : List Nat)
    (m : Intersection_Mode) (r : Document_Word_List)
    (hv : WordList_Invariant c)
    (h : Intersect_Data_With_Document_Word_List c q m = .ok r) :
    ∀ i < c.number_of_arrays, (live_subset r i).Nodup := by
  obtain ⟨-, -, -, -, -, rs, hloop, hlen, hr⟩ := intersect_ok_inversion h
  subst hr
  intro i hi
  rw [live_subset_result (by rw [hlen]; exact hi)]
  exact ((intersection_loop_ok hloop).2 i).1

theorem C4_result_rows_nodup_witness :
    WordList_Invariant sample_container ∧
    Intersect_Data_With_Document_Word_List sample_container [1, 2, 1, 2, 4]
      .intersection_mode_defaults = .ok sample_result ∧
    ∀ i < sample_container.number_of_arrays, (live_subset sample_result i).Nodup :=
  ⟨by decide, by decide,
    C4_result_rows_nodup sample_container [1, 2, 1, 2, 4]
      .intersection_mode_defaults sample_result (by decide) (by decide)⟩

/-- C5.  A completed intersection call returns a container with the input's
dimensions and cursor, flagged as intersection data. -/
theorem C5_result_shape (c : Document_Word_List) (q : List Nat)
    (m : Intersection_Mode) (r : Document_Word_List)
    (h : Intersect_Data_With_Document_Word_List c q m = .ok r) :
    r.number_of_arrays = c.number_of_arrays ∧
    r.max_array_length = c.max_array_length ∧
    r.next_free_array = c.next_free_array ∧
    r.intersection_data = true := by
  obtain ⟨-, -, -, -, -, rs, -, -, hr⟩ := intersect_ok_inversion h
  subst hr
  exact ⟨rfl, rfl, rfl, rfl⟩

theorem C5_result_shape_witness :
    Intersect_Data_With_Document_Word_List sample_container [1, 2, 4]
      .intersection_mode_defaults = .ok sample_result ∧
    (sample_result.number_of_arrays = sample_container.number_of_arrays ∧
     sample_result.max_array_length = sample_container.max_array_length ∧
     sample_result.next_free_array = sample_container.next_free_array ∧
     sample_result.intersection_data = true) :=
  ⟨by decide,
    C5_result_shape sample_container [1, 2, 4] .intersection_mode_defaults
      sample_result (by decide)⟩

/-- C6, counterexample.  On a container that is full *and* handed an
oversized row, the code fails with `capacityExceeded`, not `containerFull`:
the length assert precedes the free-slot assert, so "fails with
`ContainerFull` whenever `next_free_slot = capacity_subsets`" does not hold
as stated. -/
theorem C6_full_and_oversized_counterexample :
    full_one_slot.next_free_array = full_one_slot.number_of_arrays ∧
    full_one_slot.max_array_length < ([7, 8] : List Nat).length ∧
    Append_Data_To_Document_Word_List full_one_slot [7, 8] =
      .error .capacityExceeded ∧
    (Except.error DWL_Error.capacityExceeded :
      Except DWL_Error Document_Word_List) ≠ .error .containerFull := by
  refine ⟨rfl, by decide, by decide, by decide⟩

/-- C6, amended.  `append` fails with `capacityExceeded` whenever the
supplied length exceeds `max_array_length`; it fails with `containerFull`
whenever the container is full and the supplied length is positive and within
capacity (the length asserts precede the free-slot assert).  In either case
no container is produced, so the input container is untouched. -/
theorem C6_append_failure_modes (c : Document_Word_List) (d : List Nat) :
    (c.max_array_length < d.length →
      Append_Data_To_Document_Word_List c d = .error .capacityExceeded) ∧
    (0 < d.length → d.length ≤ c.max_array_length →
      c.next_free_array = c.number_of_arrays →
      Append_Data_To_Document_Word_List c d = .error .containerFull) := by
  constructor
  · intro hlen
    unfold Append_Data_To_Document_Word_List
    rw [if_neg (by omega), if_pos (by omega)]
  · intro hpos hle hfull
    unfold Append_Data_To_Document_Word_List
    rw [if_neg (by omega), if_neg (by omega), if_pos (by omega)]

theorem C6_append_failure_modes_witness :
    (full_one_slot.max_array_length < ([7, 8] : List Nat).length ∧
      Append_Data_To_Document_Word_List full_one_slot [7, 8] =
        .error .capacityExceeded) ∧
    (0 < ([9] : List Nat).length ∧ ([9] : List Nat).length ≤
        full_one_slot.max_array_length ∧
      full_one_slot.next_free_array = full_one_slot.number_of_arrays ∧
      Append_Data_To_Document_Word_List full_one_slot [9] =
        .error .containerFull) :=
  ⟨⟨by decide, (C6_append_failure_modes full_one_slot [7, 8]).1 (by decide)⟩,
    ⟨by decide, by decide, by decide,
      (C6_append_failure_modes full_one_slot [9]).2 (by decide) (by decide)
        (by decide)⟩⟩

/-- C7, counterexample.  A zero-length query does not yield a container of
empty result rows: the call fails with `invalidArgument` (the source asserts
`data_length != 0`). -/
theorem C7_zero_query_counterexample :
    Intersect_Data_With_Document_Word_List full_one_slot []
      .intersection_mode_defaults = .error .invalidArgument := by decide

/-- C7, amended.  A zero-length query is rejected with `invalidArgument`
(the shared contract requires a non-empty query); an input row of length 0 is
not an error: a valid container all of whose rows are empty intersects
successfully with every result row empty, and in any completed call an empty
input row yields an empty result row. -/
theorem C7_empty_inputs (c : Document_Word_List) (q : List Nat)
    (hv : WordList_Invariant c) :
    (q = [] → Intersect_Data_With_Document_Word_List c q
      .intersection_mode_defaults = .error .invalidArgument) ∧
    (q ≠ [] → q.length ≤ c.max_array_length →
      ((∀ i < c.number_of_arrays, c.arrays_lengths.getD i 0 = 0) →
        ∃ r, Intersect_Data_With_Document_Word_List c q
            .intersection_mode_defaults = .ok r ∧
          ∀ i < c.number_of_arrays, r.arrays_lengths.getD i 0 = 0) ∧
      (∀ r, Intersect_Data_With_Document_Word_List c q
          .intersection_mode_defaults = .ok r →
        ∀ i < c.number_of_arrays, c.arrays_lengths.getD i 0 = 0 →
          r.arrays_lengths.getD i 0 = 0)) := by
  obtain ⟨hnf, hdl, hal, hnum, hmax, hlb, hrow, hzero⟩ := hv
  constructor
  · intro hq
    subst hq
    rfl
  · intro hq hql
    constructor
    · intro hempty
      obtain ⟨rs, hloop, hlen, hnil⟩ := @intersection_loop_all_nil q
        ((List.range c.number_of_arrays).map (live_subset c)) 1000
        (by
          intro s hs
          obtain ⟨a, ha, rfl⟩ := List.mem_map.mp hs
          have halt : a < c.number_of_arrays := List.mem_range.mp ha
          unfold live_subset
          rw [hempty a halt]
          rfl)
      refine ⟨result_container c rs,
        intersect_eval hq hql (by omega) (by omega) hloop, ?_⟩
      intro i hi
      have hilt : i < rs.length := by
        rw [hlen]
        simpa using hi
      rw [arrays_lengths_result hilt]
      rw [hnil (rs.getD i []) (getD_mem_of_lt hilt [])]
      rfl
    · intro r hr i hi hempt
      obtain ⟨-, -, -, -, -, rs, hloop, hlen, hres⟩ := intersect_ok_inversion hr
      subst hres
      have hilt : i < rs.length := by
        rw [hlen]
        exact hi
      rw [arrays_lengths_result hilt]
      have hmem := ((intersection_loop_ok hloop).2 i).2
      rw [live_rows_getD hi] at hmem
      have hlive : live_subset c i = [] := by
        unfold live_subset
        rw [hempt]
        rfl
      have : rs.getD i [] = [] := by
        rw [List.eq_nil_iff_forall_not_mem]
        intro w hw
        have := (hmem w hw).1
        rw [hlive] at this
        exact List.not_mem_nil w this
      rw [this]
      rfl

theorem C7_empty_inputs_witness :
    WordList_Invariant full_one_slot ∧
    (([] : List Nat) = [] →
      Intersect_Data_With_Document_Word_List full_one_slot []
        .intersection_mode_defaults = .error .invalidArgument) :=
  ⟨by decide, (C7_empty_inputs full_one_slot [] (by decide)).1⟩

/-- C8.  A mode other than the (single) supported one makes the intersection
call fail with `invalidArgument` — no silent fallback — while the supported
mode never produces the argument-validation failure once the query itself is
valid and the container dimensions are positive. -/
theorem C8_mode_validation (c : Document_Word_List) (q : List Nat)
    (m : Intersection_Mode) :
    (m ≠ .intersection_mode_defaults →
      Intersect_Data_With_Document_Word_List c q m = .error .invalidArgument) ∧
    (q ≠ [] → 0 < c.number_of_arrays → 0 < c.max_array_length →
      Intersect_Data_With_Document_Word_List c q .intersection_mode_defaults ≠
        .error .invalidArgument) := by
  constructor
  · intro hm
    unfold Intersect_Data_With_Document_Word_List
    by_cases hl : q.length = 0
    · rw [if_pos hl]
    · rw [if_neg hl, if_pos hm]
  · intro hq hnum hmax
    unfold Intersect_Data_With_Document_Word_List
    rw [if_neg (fun hc => hq (List.length_eq_zero.mp hc)),
      if_neg (fun hc => hc rfl)]
    by_cases hle : q.length ≤ c.max_array_length
    · rw [if_neg (not_not_intro hle), if_neg (by omega), if_neg (by omega)]
      cases hloop : intersection_loop
          ((List.range c.number_of_arrays).map (live_subset c)) q 1000 with
      | ok rs =>
        intro hcon
        exact Except.noConfusion (show Except.ok (result_container c rs) =
          Except.error DWL_Error.invalidArgument from hcon)
      | error e =>
        intro hcon
        have hcon2 : (Except.error e : Except DWL_Error Document_Word_List) =
            Except.error DWL_Error.invalidArgument := hcon
        cases hcon2
        exact DWL_Error.noConfusion (intersection_loop_error hloop)
    · rw [if_pos hle]
      intro hcon
      cases hcon

theorem C8_mode_validation_witness :
    (Intersection_Mode.intersection_mode_qsort_and_binary_search ≠
      .intersection_mode_defaults ∧
     Intersect_Data_With_Document_Word_List full_one_slot [5]
       .intersection_mode_qsort_and_binary_search = .error .invalidArgument) ∧
    (([5] : List Nat) ≠ [] ∧ 0 < full_one_slot.number_of_arrays ∧
      0 < full_one_slot.max_array_length ∧
      Intersect_Data_With_Document_Word_List full_one_slot [5]
        .intersection_mode_defaults ≠ .error .invalidArgument) :=
  ⟨⟨by decide,
    (C8_mode_validation full_one_slot [5]
      .intersection_mode_qsort_and_binary_search).1 (by decide)⟩,
   ⟨by decide, by decide, by decide,
    (C8_mode_validation full_one_slot [5] .intersection_mode_defaults).2
      (by decide) (by decide) (by decide)⟩⟩

/-- C9.  The three container operations preserve the container invariants:
a fresh container satisfies them with cursor 0 and all recorded lengths 0, a
successful append preserves them, and a completed intersection call returns a
container satisfying them. -/
theorem C9_operations_preserve_invariants :
    (∀ n m c, Create_Document_Word_List n m = .ok c →
      WordList_Invariant c ∧ c.next_free_array = 0 ∧
      ∀ i < c.number_of_arrays, c.arrays_lengths.getD i 0 = 0) ∧
    (∀ c d c', WordList_Invariant c →
      Append_Data_To_Document_Word_List c d = .ok c' →
      WordList_Invariant c') ∧
    (∀ c q m r, WordList_Invariant c →
      Intersect_Data_With_Document_Word_List c q m = .ok r →
      WordList_Invariant r) := by
  refine ⟨?_, ?_, ?_⟩
  · intro n m c h
    unfold Create_Document_Word_List at h
    split_ifs at h with h1 h2
    cases h
    refine ⟨⟨Nat.zero_le _, by simp, by simp, Nat.pos_of_ne_zero h1,
      Nat.pos_of_ne_zero h2, ?_, ?_, ?_⟩, rfl, ?_⟩
    · intro i hi
      simp only at hi ⊢
      rw [getD_replicate hi]
      exact Nat.zero_le _
    · intro i hi
      simp only at hi ⊢
      rw [getD_replicate hi]
      simp
    · intro i hi _
      simp only at hi ⊢
      rw [getD_replicate hi]
    · intro i hi
      simp only at hi ⊢
      rw [getD_replicate hi]
  · intro c d c' hv h
    obtain ⟨hnf, hdl, hal, hnum, hmax, hlb, hrow, hzero⟩ := hv
    unfold Append_Data_To_Document_Word_List at h
    split_ifs at h with h1 h2 h3
    cases h
    have hfree : c.next_free_array < c.number_of_arrays := by omega
    have hle : d.length ≤ c.max_array_length := by omega
    refine ⟨by simp only; omega, by simp [hdl], by simp [hal],
      hnum, hmax, ?_, ?_, ?_⟩
    · intro i hi
      simp only at hi ⊢
      by_cases hieq : i = c.next_free_array
      · subst hieq
        rw [getD_set_eq (by omega) d.length 0]
        exact hle
      · rw [getD_set_neq c.arrays_lengths hieq d.length 0]
        exact hlb i hi
    · intro i hi
      simp only at hi ⊢
      by_cases hieq : i = c.next_free_array
      · subst hieq
        rw [getD_set_eq (by omega) _ []]
        rw [List.length_append, List.length_drop]
        rw [hrow c.next_free_array hfree]
        omega
      · rw [getD_set_neq c.data hieq _ []]
        exact hrow i hi
    · intro i hi hge
      simp only at hi hge ⊢
      have hieq : i ≠ c.next_free_array := by omega
      rw [getD_set_neq c.arrays_lengths hieq d.length 0]
      exact hzero i hi (by omega)
  · intro c q m r hv h
    obtain ⟨hnf, hdl, hal, hnum, hmax, hlb, hrow, hzero⟩ := hv
    obtain ⟨hq0, hmode, hql, hn0, hm0, rs, hloop, hlen, hres⟩ :=
      intersect_ok_inversion h
    subst hres
    obtain ⟨hrsl, hall⟩ := intersection_loop_ok hloop
    have hbound : ∀ i < c.number_of_arrays,
        (rs.getD i []).length ≤ c.arrays_lengths.getD i 0 ∧
        (rs.getD i []).length ≤ q.length := by
      intro i hi
      obtain ⟨hnd, hmem⟩ := hall i
      rw [live_rows_getD hi] at hmem
      constructor
      · have hsl : (live_subset c i).length = c.arrays_lengths.getD i 0 := by
          unfold live_subset
          rw [List.length_take, hrow i hi]
          exact min_eq_left (hlb i hi)
        calc (rs.getD i []).length ≤ (live_subset c i).length :=
            length_le_of_nodup_subset hnd (fun w hw => (hmem w hw).1)
          _ = c.arrays_lengths.getD i 0 := hsl
      · exact length_le_of_nodup_subset hnd (fun w hw => (hmem w hw).2)
    refine ⟨by simp only [result_container]; omega,
      by simp [result_container, hlen],
      by simp [result_container, hlen], by simpa using hnum,
      by simpa using hmax, ?_, ?_, ?_⟩
    · intro i hi
      simp only [result_container] at hi ⊢
      have hilt : i < rs.length := by omega
      rw [show ((rs.map List.length).getD i 0) = (rs.getD i []).length from
        getD_map_of_lt List.length rs hilt [] 0]
      exact le_trans (hbound i hi).2 hql
    · intro i hi
      simp only [result_container] at hi ⊢
      have hilt : i < rs.length := by omega
      rw [show ((rs.map (fun r => r ++ List.replicate
          (c.max_array_length - r.length) 0)).getD i []) =
          rs.getD i [] ++ List.replicate
            (c.max_array_length - (rs.getD i []).length) 0 from
        getD_map_of_lt _ rs hilt [] []]
      rw [List.length_append, List.length_replicate]
      have := le_trans (hbound i hi).2 hql
      omega
    · intro i hi hge
      simp only [result_container] at hi hge ⊢
      have hilt : i < rs.length := by omega
      rw [show ((rs.map List.length).getD i 0) = (rs.getD i []).length from
        getD_map_of_lt List.length rs hilt [] 0]
      have hnil : rs.getD i [] = [] := by
        rw [List.eq_nil_iff_forall_not_mem]
        intro w hw
        obtain ⟨hnd, hmem⟩ := hall i
        rw [live_rows_getD hi] at hmem
        have hwl := (hmem w hw).1
        have hlive : live_subset c i = [] := by
          unfold live_subset
          rw [hzero i hi hge]
          rfl
        rw [hlive] at hwl
        exact List.not_mem_nil w hwl
      rw [hnil]
      rfl

theorem C9_operations_preserve_invariants_witness :
    (Create_Document_Word_List 2 5 = .ok
        { data := [[0, 0, 0, 0, 0], [0, 0, 0, 0, 0]]
          arrays_lengths := [0, 0]
          max_array_length := 5
          number_of_arrays := 2
          next_free_array := 0
          intersection_data := false } ∧
      WordList_Invariant
        { data := [[0, 0, 0, 0, 0], [0, 0, 0, 0, 0]]
          arrays_lengths := [0, 0]
          max_array_length := 5
          number_of_arrays := 2
          next_free_array := 0
          intersection_data := false }) ∧
    (WordList_Invariant sample_container ∧
      Intersect_Data_With_Document_Word_List sample_container [1, 2, 4]
        .intersection_mode_defaults = .ok sample_result ∧
      WordList_Invariant sample_result) :=
  ⟨⟨by decide,
    (C9_operations_preserve_invariants.1 2 5 _ (by decide)).1⟩,
   ⟨by decide, by decide,
    C9_operations_preserve_invariants.2.2 sample_container [1, 2, 4]
      .intersection_mode_defaults sample_result (by decide) (by decide)⟩⟩

/-- C10.  When every token value of the call is addressable by the guard
(all values strictly below the guard's initial capacity of 1000), a valid
intersection call completes, and every result row is no longer than the
corresponding input row, no longer than the query, and hence within the
per-row capacity — every written element lands inside the row's preallocated
storage. -/
theorem C10_result_rows_bounded (c : Document_Word_List) (q : List Nat)
    (hv : WordList_Invariant c) (hq : q ≠ [])
    (hql : q.length ≤ c.max_array_length)
    (hsq : ∀ w ∈ q, w < 1000)
    (hsc : ∀ i < c.number_of_arrays, ∀ w ∈ live_subset c i, w < 1000) :
    ∃ r, Intersect_Data_With_Document_Word_List c q
        .intersection_mode_defaults = .ok r ∧
      ∀ i < c.number_of_arrays,
        r.arrays_lengths.getD i 0 ≤ c.arrays_lengths.getD i 0 ∧
        r.arrays_lengths.getD i 0 ≤ q.length ∧
        r.arrays_lengths.getD i 0 ≤ c.max_array_length := by
  obtain ⟨hnf, hdl, hal, hnum, hmax, hlb, hrow, hzero⟩ := hv
  obtain ⟨rs, hloop⟩ := @intersection_loop_small q
    ((List.range c.number_of_arrays).map (live_subset c)) 1000 hsq
  refine ⟨result_container c rs,
    intersect_eval hq hql (by omega) (by omega) hloop, ?_⟩
  have hrsl : rs.length = c.number_of_arrays := by
    have := (intersection_loop_ok hloop).1
    simpa using this
  intro i hi
  have hilt : i < rs.length := by omega
  obtain ⟨hnd, hmem⟩ := (intersection_loop_ok hloop).2 i
  rw [live_rows_getD hi] at hmem
  have hlq : (rs.getD i []).length ≤ q.length :=
    length_le_of_nodup_subset hnd (fun w hw => (hmem w hw).2)
  have hlc : (rs.getD i []).length ≤ c.arrays_lengths.getD i 0 := by
    have hsl : (live_subset c i).length = c.arrays_lengths.getD i 0 := by
      unfold live_subset
      rw [List.length_take, hrow i hi]
      exact min_eq_left (hlb i hi)
    calc (rs.getD i []).length ≤ (live_subset c i).length :=
        length_le_of_nodup_subset hnd (fun w hw => (hmem w hw).1)
      _ = c.arrays_lengths.getD i 0 := hsl
  rw [arrays_lengths_result hilt]
  exact ⟨hlc, hlq, le_trans hlq hql⟩

theorem C10_result_rows_bounded_witness :
    (WordList_Invariant sample_container ∧ ([1, 2, 4] : List Nat) ≠ [] ∧
      ([1, 2, 4] : List Nat).length ≤ sample_container.max_array_length ∧
      (∀ w ∈ ([1, 2, 4] : List Nat), w < 1000) ∧
      (∀ i < sample_container.number_of_arrays,
        ∀ w ∈ live_subset sample_container i, w < 1000)) ∧
    ∃ r, Intersect_Data_With_Document_Word_List sample_container [1, 2, 4]
        .intersection_mode_defaults = .ok r ∧
      ∀ i < sample_container.number_of_arrays,
        r.arrays_lengths.getD i 0 ≤
          sample_container.arrays_lengths.getD i 0 ∧
        r.arrays_lengths.getD i 0 ≤ ([1, 2, 4] : List Nat).length ∧
        r.arrays_lengths.getD i 0 ≤ sample_container.max_array_length :=
  ⟨⟨by decide, by decide, by decide, by decide, by decide⟩,
    C10_result_rows_bounded sample_container [1, 2, 4] (by decide) (by decide)
      (by decide) (by decide) (by decide)⟩

/-! ## The three matching strategies (spec-modelled)

The repository declares the two sort-based strategies only in
`Intersection_Approaches.h`; the translation unit implementing them is not
among the provided sources.  They are therefore modelled from the spec
(§4.4): sort the subset ascending — variant A with a quicksort-family
comparison sort, variant B with a heapsort-family sort — then binary-search
each query element in the sorted side, deduplicating via the guard before
appending.  The naive strategy is the nested-loop scan the header describes
and the dispatcher implements inline. -/

/-- Modelled from the spec: variant A's quicksort-family comparison sort
(average-case `O(n log n)`, worst-case quadratic). -/
def qsort : List Nat → List Nat
  | [] => []
  | x :: xs =>
    qsort (xs.filter (fun y => decide (y < x))) ++
      x :: qsort (xs.filter (fun y => ! decide (y < x)))
termination_by l => l.length
decreasing_by
  · exact Nat.lt_succ_of_le (List.length_filter_le _ _)
  · exact Nat.lt_succ_of_le (List.length_filter_le _ _)

theorem qsort_perm : ∀ l : List Nat, (qsort l).Perm l
  | [] => by rw [qsort]
  | x :: xs => by
    rw [qsort]
    have h1 := qsort_perm (xs.filter (fun y => decide (y < x)))
    have h2 := qsort_perm (xs.filter (fun y => ! decide (y < x)))
    exact List.Perm.trans (h1.append (h2.cons x))
      (List.Perm.trans List.perm_middle ((List.filter_append_perm _ xs).cons x))
termination_by l => l.length
decreasing_by
  all_goals exact Nat.lt_succ_of_le (List.length_filter_le _ _)

theorem qsort_sorted : ∀ l : List Nat, (qsort l).Sorted (· ≤ ·)
  | [] => by rw [qsort]; exact List.sorted_nil
  | x :: xs => by
    rw [qsort]
    refine List.pairwise_append.mpr ⟨qsort_sorted _, ?_, ?_⟩
    · refine List.pairwise_cons.mpr ⟨?_, qsort_sorted _⟩
      intro b hb
      have hbm : b ∈ xs.filter (fun y => ! decide (y < x)) :=
        (qsort_perm _).mem_iff.mp hb
      have hb2 := List.of_mem_filter hbm
      simp only [Bool.not_eq_true', decide_eq_false_iff_not, not_lt] at hb2
      exact hb2
    · intro a ha b hb
      have ham : a ∈ xs.filter (fun y => decide (y < x)) :=
        (qsort_perm _).mem_iff.mp ha
      have ha2 := List.of_mem_filter ham
      simp only [decide_eq_true_eq] at ha2
      rcases List.mem_cons.mp hb with rfl | hb2
      · exact le_of_lt ha2
      · have hbm : b ∈ xs.filter (fun y => ! decide (y < x)) :=
          (qsort_perm _).mem_iff.mp hb2
        have hb3 := List.of_mem_filter hbm
        simp only [Bool.not_eq_true', decide_eq_false_iff_not, not_lt] at hb3
        exact le_trans (le_of_lt ha2) hb3
termination_by l => l.length
decreasing_by
  all_goals exact Nat.lt_succ_of_le (List.length_filter_le _ _)

/-- Modelled from the spec: variant B's heapsort-family sort with a
guaranteed `O(n log n)`-class bound, realised as a skew-heap sort (build a
min-heap, then repeatedly extract the minimum). -/
inductive HTree where
  | leaf
  | node (v : Nat) (l r : HTree)

def HTree.size : HTree → Nat
  | leaf => 0
  | node _ l r => l.size + r.size + 1

def HTree.mset : HTree → Multiset Nat
  | leaf => 0
  | node v l r => v ::ₘ (l.mset + r.mset)

def HTree.merge : HTree → HTree → HTree
  | leaf, h => h
  | node v l r, leaf => node v l r
  | node x xl xr, node y yl yr =>
    if x ≤ y then node x (HTree.merge xr (node y yl yr)) xl
    else node y (HTree.merge (node x xl xr) yr) yl
termination_by a b => a.size + b.size
decreasing_by
  all_goals simp [HTree.size]
  all_goals omega

theorem HTree.size_merge : ∀ a b : HTree, (a.merge b).size = a.size + b.size
  | leaf, h => by rw [HTree.merge]; simp [HTree.size]
  | node v l r, leaf => by rw [HTree.merge]; simp [HTree.size]
  | node x xl xr, node y yl yr => by
    rw [HTree.merge]
    split
    · have := HTree.size_merge xr (node y yl yr)
      simp only [HTree.size] at this ⊢
      omega
    · have := HTree.size_merge (node x xl xr) yr
      simp only [HTree.size] at this ⊢
      omega
termination_by a b => a.size + b.size
decreasing_by
  all_goals simp [HTree.size]
  all_goals omega

theorem HTree.mset_merge : ∀ a b : HTree, (a.merge b).mset = a.mset + b.mset
  | leaf, h => by rw [HTree.merge]; simp [HTree.mset]
  | node v l r, leaf => by rw [HTree.merge]; simp [HTree.mset]
  | node x xl xr, node y yl yr => by
    rw [HTree.merge]
    split
    · have := HTree.mset_merge xr (node y yl yr)
      simp only [HTree.mset] at this ⊢
      rw [this]
      simp only [← Multiset.singleton_add]
      abel
    · have := HTree.mset_merge (node x xl xr) yr
      simp only [HTree.mset] at this ⊢
      rw [this]
      simp only [← Multiset.singleton_add]
      abel
termination_by a b => a.size + b.size
decreasing_by
  all_goals simp [HTree.size]
  all_goals omega

def HTree.IsHeap : HTree → Prop
  | leaf => True
  | node v l r =>
    (∀ w ∈ l.mset, v ≤ w) ∧ (∀ w ∈ r.mset, v ≤ w) ∧ l.IsHeap ∧ r.IsHeap

theorem HTree.isHeap_merge : ∀ a b : HTree,
    a.IsHeap → b.IsHeap → (a.merge b).IsHeap
  | leaf, h => by
    intro _ hb
    rw [HTree.merge]
    exact hb
  | node v l r, leaf => by
    intro ha _
    rw [HTree.merge]
    exact ha
  | node x xl xr, node y yl yr => by
    intro ha hb
    obtain ⟨hal, har, hhl, hhr⟩ := ha
    obtain ⟨hbl, hbr, hgl, hgr⟩ := hb
    rw [HTree.merge]
    split
    · rename_i hxy
      refine ⟨?_, hal, ?_, hhl⟩
      · intro w hw
        rw [HTree.mset_merge] at hw
        rcases Multiset.mem_add.mp hw with hw | hw
        · exact har w hw
        · simp only [HTree.mset, Multiset.mem_cons, Multiset.mem_add] at hw
          rcases hw with rfl | hw | hw
          · exact hxy
          · exact le_trans hxy (hbl w hw)
          · exact le_trans hxy (hbr w hw)
      · exact HTree.isHeap_merge xr (node y yl yr) hhr ⟨hbl, hbr, hgl, hgr⟩
    · rename_i hxy
      have hyx : y ≤ x := le_of_not_le hxy
      refine ⟨?_, hbl, ?_, hgl⟩
      · intro w hw
        rw [HTree.mset_merge] at hw
        rcases Multiset.mem_add.mp hw with hw | hw
        · simp only [HTree.mset, Multiset.mem_cons, Multiset.mem_add] at hw
          rcases hw with rfl | hw | hw
          · exact hyx
          · exact le_trans hyx (hal w hw)
          · exact le_trans hyx (har w hw)
        · exact hbr w hw
      · exact HTree.isHeap_merge (node x xl xr) yr ⟨hal, har, hhl, hhr⟩ hgr
termination_by a b => a.size + b.size
decreasing_by
  all_goals simp [HTree.size]
  all_goals omega

def HTree.insert (v : Nat) (h : HTree) : HTree :=
  HTree.merge (HTree.node v HTree.leaf HTree.leaf) h

/-- Build the min-heap from the list. -/
def heapify (l : List Nat) : HTree := l.foldr HTree.insert HTree.leaf

theorem heapify_isHeap (l : List Nat) : (heapify l).IsHeap := by
  induction l with
  | nil => trivial
  | cons x xs ih =>
    exact HTree.isHeap_merge _ _
      ⟨by simp [HTree.mset], by simp [HTree.mset], trivial, trivial⟩ ih

theorem heapify_mset (l : List Nat) : (heapify l).mset = (l : Multiset Nat) := by
  induction l with
  | nil => rfl
  | cons x xs ih =>
    show (HTree.merge (HTree.node x HTree.leaf HTree.leaf) (heapify xs)).mset
      = ((x :: xs : List Nat) : Multiset Nat)
    rw [HTree.mset_merge, ih]
    simp [HTree.mset]

/-- Repeated minimum extraction. -/
def HTree.drain : HTree → List Nat
  | leaf => []
  | node v l r => v :: HTree.drain (l.merge r)
termination_by h => h.size
decreasing_by
  all_goals (simp [HTree.size, HTree.size_merge]; try omega)

theorem HTree.drain_mset : ∀ h : HTree, (h.drain : Multiset Nat) = h.mset
  | leaf => by rw [HTree.drain]; rfl
  | node v l r => by
    rw [HTree.drain]
    have := HTree.drain_mset (l.merge r)
    show (v ::ₘ ((l.merge r).drain : Multiset Nat)) = (node v l r).mset
    rw [this, HTree.mset_merge]
    rfl
termination_by h => h.size
decreasing_by
  all_goals (simp [HTree.size, HTree.size_merge]; try omega)

theorem HTree.drain_sorted : ∀ h : HTree, h.IsHeap → h.drain.Sorted (· ≤ ·)
  | leaf => by
    intro _
    rw [HTree.drain]
    exact List.sorted_nil
  | node v l r => by
    intro hh
    obtain ⟨hl, hr, hhl, hhr⟩ := hh
    rw [HTree.drain]
    refine List.sorted_cons.mpr ⟨?_, HTree.drain_sorted (l.merge r)
      (HTree.isHeap_merge l r hhl hhr)⟩
    intro b hb
    have hbm : b ∈ ((l.merge r).drain : Multiset Nat) := by
      exact Multiset.mem_coe.mpr hb
    rw [HTree.drain_mset, HTree.mset_merge] at hbm
    rcases Multiset.mem_add.mp hbm with hw | hw
    · exact hl b hw
    · exact hr b hw
termination_by h => h.size
decreasing_by
  all_goals (simp [HTree.size, HTree.size_merge]; try omega)

/-- Modelled from the spec: the heapsort-family sort of variant B. -/
def heapsort (l : List Nat) : List Nat := (heapify l).drain

theorem heapsort_perm (l : List Nat) : (heapsort l).Perm l := by
  have h : ((heapsort l : List Nat) : Multiset Nat) = (l : Multiset Nat) := by
    unfold heapsort
    rw [HTree.drain_mset, heapify_mset]
  exact Multiset.coe_eq_coe.mp h

theorem heapsort_sorted (l : List Nat) : (heapsort l).Sorted (· ≤ ·) :=
  HTree.drain_sorted (heapify l) (heapify_isHeap l)

theorem sorted_getD_le {s : List Nat} (hs : s.Sorted (· ≤ ·)) {i j : Nat}
    (hij : i ≤ j) (hj : j < s.length) : s.getD i 0 ≤ s.getD j 0 := by
  rcases Nat.eq_or_lt_of_le hij with rfl | hlt
  · exact le_refl _
  · have hi : i < s.length := lt_trans hlt hj
    rw [List.getD_eq_getElem?_getD, List.getElem?_eq_getElem hi,
      List.getD_eq_getElem?_getD, List.getElem?_eq_getElem hj]
    exact List.pairwise_iff_get.mp hs ⟨i, hi⟩ ⟨j, hj⟩ hlt

/-- Modelled from the spec: binary search over the ascending sorted side (any
position satisfying equality is acceptable). -/
def binary_search_range (s : List Nat) (key lo hi : Nat) : Bool :=
  if lo < hi then
    if s.getD ((lo + hi) / 2) 0 = key then true
    else if s.getD ((lo + hi) / 2) 0 < key then
      binary_search_range s key ((lo + hi) / 2 + 1) hi
    else binary_search_range s key lo ((lo + hi) / 2)
  else false
termination_by hi - lo
decreasing_by
  all_goals omega

def binary_search (s : List Nat) (key : Nat) : Bool :=
  binary_search_range s key 0 s.length

/-- Binary search on a sorted list finds a key exactly when the key occurs in
the searched range. -/
theorem binary_search_range_iff {s : List Nat} {key : Nat}
    (hs : s.Sorted (· ≤ ·)) : ∀ (lo hi : Nat), hi ≤ s.length →
    (binary_search_range s key lo hi = true ↔
      ∃ i, lo ≤ i ∧ i < hi ∧ s.getD i 0 = key) := by
  intro lo hi
  intro hhi
  by_cases h : lo < hi
  · have hmidlt : (lo + hi) / 2 < hi := by omega
    have hmidge : lo ≤ (lo + hi) / 2 := by omega
    by_cases he : s.getD ((lo + hi) / 2) 0 = key
    · have hred : binary_search_range s key lo hi = true := by
        unfold binary_search_range
        rw [if_pos h, if_pos he]
      rw [hred]
      exact ⟨fun _ => ⟨(lo + hi) / 2, hmidge, hmidlt, he⟩, fun _ => rfl⟩
    · by_cases hlt : s.getD ((lo + hi) / 2) 0 < key
      · have hred : binary_search_range s key lo hi =
            binary_search_range s key ((lo + hi) / 2 + 1) hi := by
          conv_lhs => unfold binary_search_range
          rw [if_pos h, if_neg he, if_pos hlt]
        rw [hred, binary_search_range_iff hs ((lo + hi) / 2 + 1) hi hhi]
        constructor
        · rintro ⟨i, h1, h2, h3⟩
          exact ⟨i, by omega, h2, h3⟩
        · rintro ⟨i, h1, h2, h3⟩
          refine ⟨i, ?_, h2, h3⟩
          by_contra hcon
          have hile : i ≤ (lo + hi) / 2 := by omega
          have hle2 : s.getD i 0 ≤ s.getD ((lo + hi) / 2) 0 :=
            sorted_getD_le hs hile (by omega)
          rw [h3] at hle2
          omega
      · have hgt : key < s.getD ((lo + hi) / 2) 0 := by omega
        have hred : binary_search_range s key lo hi =
            binary_search_range s key lo ((lo + hi) / 2) := by
          conv_lhs => unfold binary_search_range
          rw [if_pos h, if_neg he, if_neg hlt]
        rw [hred, binary_search_range_iff hs lo ((lo + hi) / 2) (by omega)]
        constructor
        · rintro ⟨i, h1, h2, h3⟩
          exact ⟨i, h1, by omega, h3⟩
        · rintro ⟨i, h1, h2, h3⟩
          refine ⟨i, h1, ?_, h3⟩
          by_contra hcon
          have hmidle : (lo + hi) / 2 ≤ i := by omega
          have hle2 : s.getD ((lo + hi) / 2) 0 ≤ s.getD i 0 :=
            sorted_getD_le hs hmidle (by omega)
          rw [h3] at hle2
          omega
  · have hred : binary_search_range s key lo hi = false := by
      unfold binary_search_range
      rw [if_neg h]
    rw [hred]
    constructor
    · intro hcon
      cases hcon
    · rintro ⟨i, h1, h2, h3⟩
      omega
termination_by lo hi => hi - lo
decreasing_by
  all_goals omega

/-- On a sorted list, the hit test is membership. -/
theorem binary_search_mem {s : List Nat} (hs : s.Sorted (· ≤ ·)) (key : Nat) :
    (binary_search s key = true ↔ key ∈ s) := by
  unfold binary_search
  rw [binary_search_range_iff hs 0 s.length (le_refl _)]
  constructor
  · rintro ⟨i, -, hlt, heq⟩
    rw [← heq]
    exact getD_mem_of_lt hlt 0
  · intro hk
    obtain ⟨⟨i, hi⟩, hg⟩ := List.mem_iff_get.mp hk
    refine ⟨i, Nat.zero_le i, hi, ?_⟩
    rw [List.getD_eq_getElem?_getD, List.getElem?_eq_getElem hi]
    exact hg

/-- Modelled from the spec: the guard-set primitive `test_and_set(guard,
value)` returns whether the value was already marked and marks it.  Since
`ensure_capacity` (§4.2) always grows the storage until the value is
addressable and zero-fills the new region, the observable guard state is the
set of marked values, modelled as the list of values marked so far. -/
def test_and_set (seen : List Nat) (v : Nat) : Bool × List Nat :=
  if v ∈ seen then (true, seen) else (false, v :: seen)

/-- Modelled from the spec: the naive strategy's inner loop — for a fixed
subset element `x`, compare against every query element; on a match,
`test_and_set` decides whether `x` is appended to the result row. -/
def naive_inner (st : List Nat × List Nat) (x : Nat) :
    List Nat → List Nat × List Nat
  | [] => st
  | q :: rest =>
    naive_inner
      (if x = q then
        ((test_and_set st.1 x).2,
          if (test_and_set st.1 x).1 then st.2 else st.2 ++ [x])
      else st) x rest

/-- Modelled from the spec: the naive strategy's outer loop over the subset
elements (guard freshly reset for the row). -/
def naive_subset_loop (st : List Nat × List Nat) (query : List Nat) :
    List Nat → List Nat × List Nat
  | [] => st
  | x :: rest => naive_subset_loop (naive_inner st x query) query rest

/-- Modelled from the spec: one row of the naive (two-nested-loops) strategy. -/
def naiveSlot (subset query : List Nat) : List Nat :=
  (naive_subset_loop ([], []) query subset).2

/-- Modelled from the spec: the sorted strategies' query loop — binary-search
every query element in the sorted side and deduplicate hits via the guard
before appending. -/
def sorted_query_loop (s : List Nat) (st : List Nat × List Nat) :
    List Nat → List Nat × List Nat
  | [] => st
  | q :: rest =>
    sorted_query_loop s
      (if binary_search s q then
        ((test_and_set st.1 q).2,
          if (test_and_set st.1 q).1 then st.2 else st.2 ++ [q])
      else st) rest

/-- Modelled from the spec: one row of a sort-then-binary-search strategy,
parametrised by the sort step (§2 describes the two variants as one design
with a pluggable sort). -/
def sortedSlot (sortfn : List Nat → List Nat) (subset query : List Nat) :
    List Nat :=
  (sorted_query_loop (sortfn subset) ([], []) query).2

theorem naive_inner_eq (x : Nat) :
    ∀ (q : List Nat) (st : List Nat × List Nat),
    naive_inner st x q =
      (if x ∈ q ∧ x ∉ st.1 then (x :: st.1, st.2 ++ [x]) else st) := by
  intro q
  induction q with
  | nil =>
    intro st
    rw [if_neg (fun hc => List.not_mem_nil x hc.1)]
    rfl
  | cons v rest ih =>
    intro st
    by_cases hxv : x = v
    · subst hxv
      by_cases hmem : x ∈ st.1
      · have hstep : naive_inner st x (x :: rest) = naive_inner st x rest := by
          conv_lhs => unfold naive_inner
          rw [show test_and_set st.1 x = (true, st.1) from by
            unfold test_and_set; rw [if_pos hmem]]
          rw [if_pos rfl]
          rfl
        rw [hstep, ih st, if_neg (fun hc => hc.2 hmem),
          if_neg (fun hc => hc.2 hmem)]
      · have hstep : naive_inner st x (x :: rest) =
            naive_inner (x :: st.1, st.2 ++ [x]) x rest := by
          conv_lhs => unfold naive_inner
          rw [show test_and_set st.1 x = (false, x :: st.1) from by
            unfold test_and_set; rw [if_neg hmem]]
          rw [if_pos rfl]
          rfl
        rw [hstep, ih (x :: st.1, st.2 ++ [x])]
        rw [if_neg (fun hc => hc.2 (List.mem_cons_self x st.1))]
        rw [if_pos ⟨List.mem_cons_self x rest, hmem⟩]
    · have hstep : naive_inner st x (v :: rest) = naive_inner st x rest := by
        conv_lhs => unfold naive_inner
        rw [if_neg hxv]
      rw [hstep, ih st]
      exact if_congr (and_congr_left' (by simp [List.mem_cons, hxv])) rfl rfl

theorem naive_subset_spec (query : List Nat) :
    ∀ (subset : List Nat) (st : List Nat × List Nat),
    st.2.Nodup → (∀ w, w ∈ st.1 ↔ w ∈ st.2) →
    ((naive_subset_loop st query subset).2.Nodup ∧
      (∀ w, w ∈ (naive_subset_loop st query subset).1 ↔
        w ∈ (naive_subset_loop st query subset).2) ∧
      ∀ w, w ∈ (naive_subset_loop st query subset).2 ↔
        w ∈ st.2 ∨ (w ∈ subset ∧ w ∈ query)) := by
  intro subset
  induction subset with
  | nil =>
    intro st hnd hiff
    exact ⟨hnd, hiff, fun w => by simp [naive_subset_loop]⟩
  | cons x rest ih =>
    intro st hnd hiff
    have hred : naive_subset_loop st query (x :: rest) =
        naive_subset_loop (naive_inner st x query) query rest := by
      conv_lhs => unfold naive_subset_loop
    rw [hred, naive_inner_eq x query st]
    by_cases hc : x ∈ query ∧ x ∉ st.1
    · rw [if_pos hc]
      have hnd' : (st.2 ++ [x]).Nodup := by
        refine List.Nodup.append hnd (List.nodup_singleton x) ?_
        intro a ha hax
        rw [List.mem_singleton.mp hax] at ha
        exact hc.2 ((hiff x).mpr ha)
      have hiff' : ∀ w, w ∈ x :: st.1 ↔ w ∈ st.2 ++ [x] := by
        intro w
        rw [List.mem_cons, List.mem_append, List.mem_singleton, hiff w]
        tauto
      obtain ⟨h1, h2, h3⟩ := ih (x :: st.1, st.2 ++ [x]) hnd' hiff'
      refine ⟨h1, h2, fun w => ?_⟩
      rw [h3 w]
      show w ∈ st.2 ++ [x] ∨ _ ↔ _
      rw [List.mem_append, List.mem_singleton, List.mem_cons]
      constructor
      · rintro ((hw | rfl) | ⟨hwr, hwq⟩)
        · exact Or.inl hw
        · exact Or.inr ⟨Or.inl rfl, hc.1⟩
        · exact Or.inr ⟨Or.inr hwr, hwq⟩
      · rintro (hw | ⟨rfl | hwr, hwq⟩)
        · exact Or.inl (Or.inl hw)
        · exact Or.inl (Or.inr rfl)
        · exact Or.inr ⟨hwr, hwq⟩
    · rw [if_neg hc]
      obtain ⟨h1, h2, h3⟩ := ih st hnd hiff
      refine ⟨h1, h2, fun w => ?_⟩
      rw [h3 w, List.mem_cons]
      constructor
      · rintro (hw | ⟨hwr, hwq⟩)
        · exact Or.inl hw
        · exact Or.inr ⟨Or.inr hwr, hwq⟩
      · rintro (hw | ⟨rfl | hwr, hwq⟩)
        · exact Or.inl hw
        · rcases not_and_or.mp hc with hnq | hns
          · exact absurd hwq hnq
          · exact Or.inl ((hiff w).mp (not_not.mp hns))
        · exact Or.inr ⟨hwr, hwq⟩

/-- The naive strategy's row is duplicate-free and holds exactly the common
values of the subset and the query. -/
theorem naiveSlot_spec (subset query : List Nat) :
    (naiveSlot subset query).Nodup ∧
    ∀ w, w ∈ naiveSlot subset query ↔ w ∈ subset ∧ w ∈ query := by
  obtain ⟨h1, h2, h3⟩ := naive_subset_spec query subset ([], [])
    List.nodup_nil (fun w => Iff.rfl)
  refine ⟨h1, fun w => ?_⟩
  rw [show naiveSlot subset query = (naive_subset_loop ([], []) query subset).2
    from rfl, h3 w]
  simp

theorem sorted_query_spec (s : List Nat) :
    ∀ (query : List Nat) (st : List Nat × List Nat),
    st.2.Nodup → (∀ w, w ∈ st.1 ↔ w ∈ st.2) →
    ((sorted_query_loop s st query).2.Nodup ∧
      ∀ w, w ∈ (sorted_query_loop s st query).2 ↔
        w ∈ st.2 ∨ (w ∈ query ∧ binary_search s w = true)) := by
  intro query
  induction query with
  | nil =>
    intro st hnd hiff
    exact ⟨hnd, fun w => by simp [sorted_query_loop]⟩
  | cons q rest ih =>
    intro st hnd hiff
    by_cases hbs : binary_search s q = true
    · by_cases hmem : q ∈ st.1
      · have hred : sorted_query_loop s st (q :: rest) =
            sorted_query_loop s st rest := by
          conv_lhs => unfold sorted_query_loop
          rw [if_pos hbs]
          rw [show test_and_set st.1 q = (true, st.1) from by
            unfold test_and_set; rw [if_pos hmem]]
          rfl
        rw [hred]
        obtain ⟨h1, h2⟩ := ih st hnd hiff
        refine ⟨h1, fun w => ?_⟩
        rw [h2 w, List.mem_cons]
        constructor
        · rintro (hw | ⟨hwq, hwb⟩)
          · exact Or.inl hw
          · exact Or.inr ⟨Or.inr hwq, hwb⟩
        · rintro (hw | ⟨rfl | hwq, hwb⟩)
          · exact Or.inl hw
          · exact Or.inl ((hiff w).mp hmem)
          · exact Or.inr ⟨hwq, hwb⟩
      · have hred : sorted_query_loop s st (q :: rest) =
            sorted_query_loop s (q :: st.1, st.2 ++ [q]) rest := by
          conv_lhs => unfold sorted_query_loop
          rw [if_pos hbs]
          rw [show test_and_set st.1 q = (false, q :: st.1) from by
            unfold test_and_set; rw [if_neg hmem]]
          rfl
        rw [hred]
        have hnd' : (st.2 ++ [q]).Nodup := by
          refine List.Nodup.append hnd (List.nodup_singleton q) ?_
          intro a ha haq
          rw [List.mem_singleton.mp haq] at ha
          exact hmem ((hiff q).mpr ha)
        have hiff' : ∀ w, w ∈ q :: st.1 ↔ w ∈ st.2 ++ [q] := by
          intro w
          rw [List.mem_cons, List.mem_append, List.mem_singleton, hiff w]
          tauto
        obtain ⟨h1, h2⟩ := ih (q :: st.1, st.2 ++ [q]) hnd' hiff'
        refine ⟨h1, fun w => ?_⟩
        rw [h2 w]
        show w ∈ st.2 ++ [q] ∨ _ ↔ _
        rw [List.mem_append, List.mem_singleton, List.mem_cons]
        constructor
        · rintro ((hw | rfl) | ⟨hwq, hwb⟩)
          · exact Or.inl hw
          · exact Or.inr ⟨Or.inl rfl, hbs⟩
          · exact Or.inr ⟨Or.inr hwq, hwb⟩
        · rintro (hw | ⟨rfl | hwq, hwb⟩)
          · exact Or.inl (Or.inl hw)
          · exact Or.inl (Or.inr rfl)
          · exact Or.inr ⟨hwq, hwb⟩
    · have hred : sorted_query_loop s st (q :: rest) =
          sorted_query_loop s st rest := by
        conv_lhs => unfold sorted_query_loop
        rw [if_neg hbs]
      rw [hred]
      obtain ⟨h1, h2⟩ := ih st hnd hiff
      refine ⟨h1, fun w => ?_⟩
      rw [h2 w, List.mem_cons]
      constructor
      · rintro (hw | ⟨hwq, hwb⟩)
        · exact Or.inl hw
        · exact Or.inr ⟨Or.inr hwq, hwb⟩
      · rintro (hw | ⟨rfl | hwq, hwb⟩)
        · exact Or.inl hw
        · exact absurd hwb hbs
        · exact Or.inr ⟨hwq, hwb⟩

/-- A sort-then-binary-search strategy's row, for any correct sort step, is
duplicate-free and holds exactly the common values of subset and query. -/
theorem sortedSlot_spec (sortfn : List Nat → List Nat)
    (hso : ∀ l, (sortfn l).Sorted (· ≤ ·))
    (hpe : ∀ l, (sortfn l).Perm l) (subset query : List Nat) :
    (sortedSlot sortfn subset query).Nodup ∧
    ∀ w, w ∈ sortedSlot sortfn subset query ↔ w ∈ subset ∧ w ∈ query := by
  obtain ⟨h1, h2⟩ := sorted_query_spec (sortfn subset) query ([], [])
    List.nodup_nil (fun w => Iff.rfl)
  refine ⟨h1, fun w => ?_⟩
  rw [show sortedSlot sortfn subset query =
    (sorted_query_loop (sortfn subset) ([], []) query).2 from rfl, h2 w]
  rw [binary_search_mem (hso subset) w]
  rw [(hpe subset).mem_iff]
  simp [and_comm]

theorem range_map_getD {f : Nat → List Nat} {n i : Nat} (h : i < n) :
    ((List.range n).map f).getD i [] = f i := by
  have hr : (List.range n).getD i 0 = i := by
    rw [List.getD_eq_getElem?_getD, List.getElem?_range h]
    rfl
  have hm := getD_map_of_lt f (List.range n) (by simpa using h) 0 []
  rw [hr] at hm
  exact hm

/-- Modelled from the spec: `IntersectionApproach_TwoNestedLoops` — the naive
strategy over a whole container, producing a result container of the input's
shape (its implementation is not under the provided sources; the header in
`src/Intersection_Approaches.h` documents the asserts, and §4.3/§4.4 the
contract). -/
def IntersectionApproach_TwoNestedLoops (object : Document_Word_List)
    (data : List Nat) : Except DWL_Error Document_Word_List :=
  if data.length = 0 then .error .invalidArgument
  else if object.number_of_arrays = 0 then .error .invalidArgument
  else if object.max_array_length = 0 then .error .invalidArgument
  else .ok (result_container object
    ((List.range object.number_of_arrays).map
      (fun i => naiveSlot (live_subset object i) data)))

/-- Modelled from the spec: `IntersectionApproach_QSortAndBinarySearch` —
sort each subset with the quicksort-family sort, then binary-search each
query element, deduplicating via the guard (§4.4 variant A). -/
def IntersectionApproach_QSortAndBinarySearch (object : Document_Word_List)
    (data : List Nat) : Except DWL_Error Document_Word_List :=
  if data.length = 0 then .error .invalidArgument
  else if object.number_of_arrays = 0 then .error .invalidArgument
  else if object.max_array_length = 0 then .error .invalidArgument
  else .ok (result_container object
    ((List.range object.number_of_arrays).map
      (fun i => sortedSlot qsort (live_subset object i) data)))

/-- Modelled from the spec: `IntersectionApproach_HeapSortAndBinarySearch` —
sort each subset with the heapsort-family sort, then binary-search each query
element, deduplicating via the guard (§4.4 variant B). -/
def IntersectionApproach_HeapSortAndBinarySearch (object : Document_Word_List)
    (data : List Nat) : Except DWL_Error Document_Word_List :=
  if data.length = 0 then .error .invalidArgument
  else if object.number_of_arrays = 0 then .error .invalidArgument
  else if object.max_array_length = 0 then .error .invalidArgument
  else .ok (result_container object
    ((List.range object.number_of_arrays).map
      (fun i => sortedSlot heapsort (live_subset object i) data)))

/-- C3.  On every valid container and valid query all three strategies
succeed, and they produce the same *set* of values in every result row —
namely the intersection of the row's values with the query's values (order
may differ between strategies). -/
theorem C3_strategies_extensionally_equal (c : Document_Word_List)
    (q : List Nat) (hv : WordList_Invariant c) (hq : q ≠ [])
    (hql : q.length ≤ c.max_array_length) :
    ∃ r1 r2 r3,
      IntersectionApproach_TwoNestedLoops c q = .ok r1 ∧
      IntersectionApproach_QSortAndBinarySearch c q = .ok r2 ∧
      IntersectionApproach_HeapSortAndBinarySearch c q = .ok r3 ∧
      ∀ i < c.number_of_arrays,
        (live_subset r1 i).toFinset =
          (live_subset c i).toFinset ∩ q.toFinset ∧
        (live_subset r2 i).toFinset = (live_subset r1 i).toFinset ∧
        (live_subset r3 i).toFinset = (live_subset r1 i).toFinset := by
  obtain ⟨hnf, hdl, hal, hnum, hmax, hlb, hrow, hzero⟩ := hv
  have hq0 : ¬ q.length = 0 := fun hc => hq (List.length_eq_zero.mp hc)
  have hn0 : ¬ c.number_of_arrays = 0 := by omega
  have hm0 : ¬ c.max_array_length = 0 := by omega
  refine ⟨result_container c ((List.range c.number_of_arrays).map
      (fun j => naiveSlot (live_subset c j) q)),
    result_container c ((List.range c.number_of_arrays).map
      (fun j => sortedSlot qsort (live_subset c j) q)),
    result_container c ((List.range c.number_of_arrays).map
      (fun j => sortedSlot heapsort (live_subset c j) q)), ?_, ?_, ?_, ?_⟩
  · unfold IntersectionApproach_TwoNestedLoops
    rw [if_neg hq0, if_neg hn0, if_neg hm0]
  · unfold IntersectionApproach_QSortAndBinarySearch
    rw [if_neg hq0, if_neg hn0, if_neg hm0]
  · unfold IntersectionApproach_HeapSortAndBinarySearch
    rw [if_neg hq0, if_neg hn0, if_neg hm0]
  · intro i hi
    have hlen : i < ((List.range c.number_of_arrays).map
        (fun j => naiveSlot (live_subset c j) q)).length := by
      simpa using hi
    have h1 : live_subset (result_container c
        ((List.range c.number_of_arrays).map
          (fun j => naiveSlot (live_subset c j) q))) i =
        naiveSlot (live_subset c i) q := by
      rw [live_subset_result hlen, range_map_getD hi]
    have h2 : live_subset (result_container c
        ((List.range c.number_of_arrays).map
          (fun j => sortedSlot qsort (live_subset c j) q))) i =
        sortedSlot qsort (live_subset c i) q := by
      rw [live_subset_result (by simpa using hi), range_map_getD hi]
    have h3 : live_subset (result_container c
        ((List.range c.number_of_arrays).map
          (fun j => sortedSlot heapsort (live_subset c j) q))) i =
        sortedSlot heapsort (live_subset c i) q := by
      rw [live_subset_result (by simpa using hi), range_map_getD hi]
    rw [h1, h2, h3]
    have hn := (naiveSlot_spec (live_subset c i) q).2
    have hqs := (sortedSlot_spec qsort qsort_sorted qsort_perm
      (live_subset c i) q).2
    have hhs := (sortedSlot_spec heapsort heapsort_sorted heapsort_perm
      (live_subset c i) q).2
    refine ⟨?_, ?_, ?_⟩
    · ext w
      simp only [List.mem_toFinset, Finset.mem_inter]
      exact hn w
    · ext w
      simp only [List.mem_toFinset]
      rw [hqs w, hn w]
    · ext w
      simp only [List.mem_toFinset]
      rw [hhs w, hn w]

theorem C3_strategies_extensionally_equal_witness :
    (WordList_Invariant sample_container ∧ ([1, 2, 4] : List Nat) ≠ [] ∧
      ([1, 2, 4] : List Nat).length ≤ sample_container.max_array_length) ∧
    ∃ r1 r2 r3,
      IntersectionApproach_TwoNestedLoops sample_container [1, 2, 4] = .ok r1 ∧
      IntersectionApproach_QSortAndBinarySearch sample_container [1, 2, 4] =
        .ok r2 ∧
      IntersectionApproach_HeapSortAndBinarySearch sample_container [1, 2, 4] =
        .ok r3 ∧
      ∀ i < sample_container.number_of_arrays,
        (live_subset r1 i).toFinset =
          (live_subset sample_container i).toFinset ∩
            ([1, 2, 4] : List Nat).toFinset ∧
        (live_subset r2 i).toFinset = (live_subset r1 i).toFinset ∧
        (live_subset r3 i).toFinset = (live_subset r1 i).toFinset :=
  ⟨⟨by decide, by decide, by decide⟩,
    C3_strategies_extensionally_equal sample_container [1, 2, 4] (by decide)
      (by decide) (by decide)⟩
